import Mathlib

/-!
Shallow embedding of the `egui-video-player` playback core and proofs about it.

The embedding models, from the Rust sources:
  * `src/player/circular_buffer.rs` — the overwriting bounded FIFO (`push_slice`,
    `try_pop`, `clear`), as functions on `List` plus an explicit capacity;
  * `src/player/clock.rs` — `AudioClock` (position in microseconds, paused flag,
    one-shot `clear_buffer` flag, sample rate, channels);
  * `src/player/audio.rs` — `AudioSource::next`, the pull-side sample iterator;
  * `src/player/video.rs` — `VideoFrameQueue` with `receive_frames`,
    `get_display_frame`, `get_first_frame_after_seek`, `clear`;
  * `src/player/decoder.rs` — the control skeleton of `decode_loop`
    (stop flag, command drain, pending-seek handling, paused/EOF wait,
    packet-read dispatch); the per-packet decode bodies are abstracted into
    a `processPacket` effect since no property here depends on them;
  * `src/player/mod.rs` — the `VideoPlayer::seek` / `position` facade state.

Conventions: Rust `f64` times (seconds) are modelled as `ℚ`; the Rust casts
`as i64` / `as u64` on nonnegative in-range values truncate toward zero, which
is `i64OfRat` / `u64OfRat` below (64-bit saturation is not modelled: all values
of interest are far below 2^63).  Channels and mutexes disappear in the
sequential model: the video channel is the `receiver` list of the queue state,
and atomics are plain record fields updated by the operations that own them.
-/

/-! ## circular_buffer.rs -/

namespace CircularBuffer

/-- `CircularBuffer::push_slice` (src/player/circular_buffer.rs:32-52): append
`items`; if `items.length ≥ capacity`, keep only the last `capacity` items of
`items`; otherwise drain just enough oldest elements to make room, then append. -/
def push_slice (capacity : ℕ) (buf items : List α) : List α :=
  if capacity ≤ items.length then
    items.drop (items.length - capacity)
  else
    let available := capacity - buf.length
    let buf1 := if available < items.length then buf.drop (items.length - available) else buf
    buf1 ++ items

/-- `CircularBuffer::try_pop` (src/player/circular_buffer.rs:55-57): pop the
oldest item, returning it together with the remaining buffer. -/
def try_pop (buf : List α) : Option α × List α :=
  match buf with
  | [] => (none, [])
  | x :: rest => (some x, rest)

/-- `CircularBuffer::clear` (src/player/circular_buffer.rs:60-62). -/
def clear (_ : List α) : List α := []

end CircularBuffer

/-- One operation on a circular buffer, for reasoning about operation traces. -/
inductive CBOp (α : Type) where
  | push (items : List α)
  | pop
  deriving DecidableEq, Repr

/-- Apply one operation; the second component lists the output of a pop. -/
def cbApply (capacity : ℕ) (buf : List α) : CBOp α → List α × List (Option α)
  | .push items => (CircularBuffer.push_slice capacity buf items, [])
  | .pop =>
      let (r, b) := CircularBuffer.try_pop buf
      (b, [r])

/-- Run a trace of circular-buffer operations, collecting all pop outputs. -/
def cbRun (capacity : ℕ) (buf : List α) : List (CBOp α) → List α × List (Option α)
  | [] => (buf, [])
  | op :: rest =>
      let s1 := cbApply capacity buf op
      let s2 := cbRun capacity s1.1 rest
      (s2.1, s1.2 ++ s2.2)

/-- The last `n` elements of a list (all of it when `n ≥ length`). -/
def lastN (n : ℕ) (l : List α) : List α := l.drop (l.length - n)

/-! ## clock.rs -/

/-- Rust's `as i64` cast of a (finite, in-range) `f64`: truncation toward zero. -/
def i64OfRat (q : ℚ) : ℤ := q.num.tdiv (q.den : ℤ)

/-- Rust's `as u64` cast of a (finite, in-range) `f64`: truncation toward zero,
with negative values clamped to `0`. -/
def u64OfRat (q : ℚ) : ℕ := (i64OfRat q).toNat

/-- `AudioClock` state (src/player/clock.rs:7-18).  The `Arc<AtomicU64>` /
`Arc<AtomicBool>` cells become plain fields of the sequential state. -/
structure AudioClock where
  position_us : ℕ
  paused : Bool
  clear_buffer : Bool
  sample_rate : ℕ
  channels : ℕ
  deriving DecidableEq, Repr

namespace AudioClock

/-- `AudioClock::position` (src/player/clock.rs:32-34): seconds. -/
def position (c : AudioClock) : ℚ := (c.position_us : ℚ) / 1000000

/-- `AudioClock::set_position` (src/player/clock.rs:38-42): store the position
in microseconds and raise the `clear_buffer` flag. -/
def set_position (c : AudioClock) (seconds : ℚ) : AudioClock :=
  { c with position_us := u64OfRat (seconds * 1000000), clear_buffer := true }

/-- `AudioClock::should_clear_buffer` (src/player/clock.rs:45-47): atomic
swap-to-false; returns the old flag and the updated clock. -/
def should_clear_buffer (c : AudioClock) : Bool × AudioClock :=
  (c.clear_buffer, { c with clear_buffer := false })

/-- `AudioClock::advance_samples` (src/player/clock.rs:50-56): when not paused,
add `samples · 10^6 / (sample_rate · channels)` microseconds (truncated). -/
def advance_samples (c : AudioClock) (samples : ℕ) : AudioClock :=
  if c.paused then c
  else
    let us_per_sample : ℚ := 1000000 / ((c.sample_rate : ℚ) * (c.channels : ℚ))
    let delta_us := u64OfRat ((samples : ℚ) * us_per_sample)
    { c with position_us := c.position_us + delta_us }

/-- `AudioClock::pause` (src/player/clock.rs:63-65). -/
def pause (c : AudioClock) : AudioClock := { c with paused := true }

/-- `AudioClock::resume` (src/player/clock.rs:67-69). -/
def resume (c : AudioClock) : AudioClock := { c with paused := false }

end AudioClock

/-- One observable operation on the clock's clear-buffer protocol. -/
inductive ClockOp where
  | set_pos (t : ℚ)
  | check
  deriving DecidableEq, Repr

/-- Whether an operation is a `set_position` call. -/
def isSetPos : ClockOp → Bool
  | .set_pos _ => true
  | .check => false

/-- Run a trace of `set_position` / `should_clear_buffer` calls on one clock,
collecting the boolean returned by each `should_clear_buffer` observation. -/
def clock_outputs (c : AudioClock) : List ClockOp → List Bool
  | [] => []
  | .set_pos t :: rest => clock_outputs (c.set_position t) rest
  | .check :: rest =>
      let r := c.should_clear_buffer
      r.1 :: clock_outputs r.2 rest

/-- Number of `should_clear_buffer` observations in a trace. -/
def numChecks (ops : List ClockOp) : ℕ :=
  (ops.filter (fun op => !isSetPos op)).length

/-- `true` for the first observation, `false` for every later one. -/
def oneShotPattern : ℕ → List Bool
  | 0 => []
  | n + 1 => true :: List.replicate n false

/-! ## video.rs -/

/-- `DecodedVideoFrame` (src/player/decoder.rs:25-30); pixel data is opaque to
every property proved here, so pixels are modelled as an arbitrary list. -/
structure DecodedVideoFrame where
  pixels : List ℕ
  width : ℕ
  height : ℕ
  pts : ℚ
  deriving DecidableEq, Repr

/-- `DROP_THRESHOLD` (src/player/video.rs:7): 0.02 s. -/
def DROP_THRESHOLD : ℚ := 2 / 100

/-- `HOLD_THRESHOLD` (src/player/video.rs:9): 0.02 s. -/
def HOLD_THRESHOLD : ℚ := 2 / 100

/-- `VideoFrameQueue` (src/player/video.rs:12-17); the crossbeam receiver is
modelled as the list of frames waiting in the channel, oldest first. -/
structure VideoFrameQueue where
  receiver : List DecodedVideoFrame
  buffer : List DecodedVideoFrame
  current_frame : Option DecodedVideoFrame
  max_buffer_size : ℕ
  deriving DecidableEq, Repr

/-- The drop predicate of the `get_display_frame` while-loop
(src/player/video.rs:49): the frame is too late for clock time `T`. -/
def lateFor (T : ℚ) (f : DecodedVideoFrame) : Bool := decide (f.pts < T - DROP_THRESHOLD)

/-- The drop predicate of `get_first_frame_after_seek` (src/player/video.rs:79):
the frame is older than the seek target minus the 0.5 s tolerance. -/
def beforeSeekTol (target : ℚ) (f : DecodedVideoFrame) : Bool :=
  decide (f.pts < target - 1 / 2)

namespace VideoFrameQueue

/-- `VideoFrameQueue::receive_frames` (src/player/video.rs:30-40): move frames
from the channel to the back of the buffer until the buffer is full or the
channel is empty. -/
def receive_frames (q : VideoFrameQueue) : VideoFrameQueue :=
  let n := q.max_buffer_size - q.buffer.length
  { q with buffer := q.buffer ++ q.receiver.take n, receiver := q.receiver.drop n }

/-- `VideoFrameQueue::get_display_frame` (src/player/video.rs:44-65): refill,
drop late frames from the front, advance at most one due frame into
`current_frame`, and return `current_frame`. -/
def get_display_frame (q : VideoFrameQueue) (audio_time : ℚ) :
    VideoFrameQueue × Option DecodedVideoFrame :=
  let q1 := q.receive_frames
  let b := q1.buffer.dropWhile (lateFor audio_time)
  let q2 :=
    match b with
    | frame :: rest =>
        if frame.pts ≤ audio_time + HOLD_THRESHOLD then
          { q1 with buffer := rest, current_frame := some frame }
        else
          { q1 with buffer := frame :: rest }
    | [] => { q1 with buffer := [] }
  (q2, q2.current_frame)

/-- `VideoFrameQueue::get_first_frame_after_seek` (src/player/video.rs:74-92):
refill, drop frames older than `seek_target - 0.5`, take the first remaining
frame unconditionally, and return `current_frame`. -/
def get_first_frame_after_seek (q : VideoFrameQueue) (seek_target : ℚ) :
    VideoFrameQueue × Option DecodedVideoFrame :=
  let q1 := q.receive_frames
  let b := q1.buffer.dropWhile (beforeSeekTol seek_target)
  let q2 :=
    match b with
    | frame :: rest => { q1 with buffer := rest, current_frame := some frame }
    | [] => { q1 with buffer := [] }
  (q2, q2.current_frame)

/-- `VideoFrameQueue::clear` (src/player/video.rs:95-100): drop the buffer and
the current frame and drain the channel. -/
def clear (q : VideoFrameQueue) : VideoFrameQueue :=
  { q with buffer := [], current_frame := none, receiver := [] }

end VideoFrameQueue

/-- All frames a queue state can still present, in pipeline order: the current
frame, then the lookahead buffer, then the frames waiting in the channel. -/
def frameChain (q : VideoFrameQueue) : List DecodedVideoFrame :=
  q.current_frame.toList ++ q.buffer ++ q.receiver

/-- The queue state holds strictly increasing presentation timestamps across
current frame, buffer, and channel (monotone-PTS decoding epoch). -/
def StateSorted (q : VideoFrameQueue) : Prop :=
  (frameChain q).Pairwise (fun a b => a.pts < b.pts)

instance (q : VideoFrameQueue) : Decidable (StateSorted q) :=
  inferInstanceAs
    (Decidable ((frameChain q).Pairwise (fun a b : DecodedVideoFrame => a.pts < b.pts)))

/-- Run `get_display_frame` once per clock value and collect, in order, each
frame newly moved into `current_frame` (the presented frames). -/
def run_display (q : VideoFrameQueue) : List ℚ → List DecodedVideoFrame
  | [] => []
  | T :: rest =>
      let q1 := (q.get_display_frame T).1
      let tail := run_display q1 rest
      match q1.current_frame, q.current_frame with
      | some f, none => f :: tail
      | some f, some g => if f = g then tail else f :: tail
      | none, _ => tail

/-! ## audio.rs -/

/-- `AudioSource` (src/player/audio.rs:10-14): the shared circular buffer, the
shared clock, and the local consumed-samples counter. -/
structure AudioSource where
  buffer : List ℚ
  clock : AudioClock
  samples_consumed : ℕ
  deriving DecidableEq, Repr

/-- `<AudioSource as Iterator>::next` (src/player/audio.rs:29-52): on a raised
clear-buffer flag, clear the buffer, reset the counter and yield silence;
otherwise pop a sample (advancing the clock by 256 samples whenever the counter
reaches a multiple of 256) or yield silence on underrun. -/
def AudioSource.next (s : AudioSource) : Option ℚ × AudioSource :=
  let r := s.clock.should_clear_buffer
  if r.1 then
    (some 0, { buffer := CircularBuffer.clear s.buffer, clock := r.2, samples_consumed := 0 })
  else
    match CircularBuffer.try_pop s.buffer with
    | (some sample, rest) =>
        let consumed := s.samples_consumed + 1
        let clock1 := if consumed % 256 = 0 then r.2.advance_samples 256 else r.2
        (some sample, { buffer := rest, clock := clock1, samples_consumed := consumed })
    | (none, _) => (some 0, { s with clock := r.2 })

/-! ## decoder.rs (control skeleton of decode_loop) -/

/-- `DecoderCommand` (src/player/decoder.rs:33-38). -/
inductive DecoderCommand where
  | seek (target : ℚ)
  | pause
  | resume
  | stop
  deriving DecidableEq, Repr

/-- The decoder thread's loop-local state (src/player/decoder.rs:187-189)
together with the shared clock it mutates. -/
structure DecoderState where
  paused : Bool
  pending_seek : Option ℚ
  at_eof : Bool
  clock : AudioClock
  deriving DecidableEq, Repr

/-- Calls the decode loop makes into its collaborators, in program order. -/
inductive DecoderEffect where
  | demuxSeek (target_ts : ℤ) (max_ts : ℤ)
  | flushVideoDecoder
  | flushAudioDecoder
  | sleep10ms
  | packetRead
  | processPacket (stream_index : ℕ)
  deriving DecidableEq, Repr

/-- Outcome of `packet.read(&mut input)` (src/player/decoder.rs:240). -/
inductive ReadResult where
  | ok (stream_index : ℕ)
  | eofRead
  | readErr
  deriving DecidableEq, Repr

/-- Result of one iteration of the decode loop: exit, or continue with the new
state and the effects performed this iteration. -/
inductive DecodeStepResult where
  | exitOk
  | continueLoop (s : DecoderState) (effects : List DecoderEffect)
  deriving DecidableEq, Repr

/-- `ffmpeg_next::ffi::AV_TIME_BASE`. -/
def AV_TIME_BASE : ℤ := 1000000

/-- The command-drain loop (src/player/decoder.rs:199-216): process all pending
commands; `none` means the loop function returns (Stop or disconnect). -/
def processCommands : DecoderState → List DecoderCommand → Option DecoderState
  | s, [] => some s
  | _, .stop :: _ => none
  | s, .pause :: rest =>
      processCommands { s with paused := true, clock := s.clock.pause } rest
  | s, .resume :: rest =>
      processCommands { s with paused := false, clock := s.clock.resume } rest
  | s, .seek t :: rest => processCommands { s with pending_seek := some t } rest

/-- Pending-seek handling (src/player/decoder.rs:219-230): take the pending
target, ask the demuxer to seek to `target·AV_TIME_BASE` microseconds with that
same value as the upper bound (`input.seek(ts, ..ts)`), and, when the demuxer
call succeeds, flush both decoders, set the clock position (raising the
buffer-clear flag) and leave EOF state.  `seek_ok` is the demuxer's result. -/
def handle_pending_seek (s : DecoderState) (seek_ok : Bool) :
    DecoderState × List DecoderEffect :=
  match s.pending_seek with
  | none => (s, [])
  | some target =>
      let target_ts := i64OfRat (target * (AV_TIME_BASE : ℚ))
      let s0 := { s with pending_seek := none }
      if seek_ok then
        ({ s0 with clock := s0.clock.set_position target, at_eof := false },
          [.demuxSeek target_ts target_ts, .flushVideoDecoder, .flushAudioDecoder])
      else
        (s0, [.demuxSeek target_ts target_ts])

/-- One iteration of the decode loop (src/player/decoder.rs:192-347): stop-flag
check, command drain, pending-seek handling, paused/EOF wait, then one packet
read dispatched by outcome.  The packet-processing bodies (video scale/send,
audio resample/push) are abstracted into the `processPacket` effect. -/
def decode_step (s : DecoderState) (stop_flag : Bool) (commands : List DecoderCommand)
    (seek_ok : Bool) (read_result : ReadResult) : DecodeStepResult :=
  if stop_flag then .exitOk
  else
    match processCommands s commands with
    | none => .exitOk
    | some s1 =>
        let r := handle_pending_seek s1 seek_ok
        if r.1.paused || r.1.at_eof then
          .continueLoop r.1 (r.2 ++ [.sleep10ms])
        else
          match read_result with
          | .eofRead => .continueLoop { r.1 with at_eof := true } (r.2 ++ [.packetRead])
          | .readErr => .continueLoop r.1 (r.2 ++ [.packetRead])
          | .ok idx => .continueLoop r.1 (r.2 ++ [.packetRead, .processPacket idx])

/-! ## mod.rs (player facade) -/

/-- `PlayerState` (src/player/mod.rs:52-57). -/
inductive PlayerState where
  | Stopped
  | Playing
  | Paused
  deriving DecidableEq, Repr

/-- Rust's `f64::clamp(lo, hi)`. -/
def rustClamp (x lo hi : ℚ) : ℚ := if x < lo then lo else if hi < x then hi else x

/-- The `VideoPlayer` fields touched by `seek` and `position`
(src/player/mod.rs:60-89); the rodio sink is its paused flag, and commands sent
to the decoder thread are collected in an emission log. -/
structure VideoPlayer where
  state : PlayerState
  seeking : Bool
  seek_target : ℚ
  duration : ℚ
  sink_paused : Bool
  clock : AudioClock
  frame_queue : VideoFrameQueue
  commands : List DecoderCommand
  deriving DecidableEq, Repr

/-- `VideoPlayer::seek` (src/player/mod.rs:196-204): clamp the requested
position to `[0, duration]`, raise the seeking flag, pause the sink, clear the
frame queue, set the clock, and emit a Seek command. -/
def VideoPlayer.seek (p : VideoPlayer) (position : ℚ) : VideoPlayer :=
  let position_secs := rustClamp position 0 p.duration
  { p with
    seeking := true
    seek_target := position_secs
    sink_paused := true
    frame_queue := p.frame_queue.clear
    clock := p.clock.set_position position_secs
    commands := p.commands ++ [.seek position_secs] }

/-- `VideoPlayer::position` (src/player/mod.rs:309-317): the seek target while
seeking, the clock position otherwise. -/
def VideoPlayer.position (p : VideoPlayer) : ℚ :=
  if p.seeking then p.seek_target else p.clock.position

/-! ## Theorems -/

/-- If `dropWhile` produces a cons, its head falsifies the predicate. -/
theorem dropWhile_cons_head_not {p : α → Bool} {l : List α} {f : α} {rest : List α}
    (h : l.dropWhile p = f :: rest) : p f = false := by
  have hh := List.head?_dropWhile_not p l
  rw [h] at hh
  simpa using hh

/-- C1: `get_display_frame(T)` first refills the buffer, then removes from the
front exactly the maximal run of frames with `pts < T - DROP_THRESHOLD` (none of
which becomes the current frame), then moves the remaining front frame into
`current_frame` precisely when its `pts ≤ T + HOLD_THRESHOLD` (one frame at
most), and returns `current_frame`. -/
theorem C1_get_display_frame_behavior (q : VideoFrameQueue) (T : ℚ) :
    (q.get_display_frame T).2 = (q.get_display_frame T).1.current_frame ∧
    q.receive_frames.buffer =
      q.receive_frames.buffer.takeWhile (lateFor T) ++
        q.receive_frames.buffer.dropWhile (lateFor T) ∧
    (∀ f ∈ q.receive_frames.buffer.takeWhile (lateFor T), f.pts < T - DROP_THRESHOLD) ∧
    (match q.receive_frames.buffer.dropWhile (lateFor T) with
      | f :: rest =>
          if f.pts ≤ T + HOLD_THRESHOLD then
            (q.get_display_frame T).1.current_frame = some f ∧
            (q.get_display_frame T).1.buffer = rest
          else
            (q.get_display_frame T).1.current_frame = q.current_frame ∧
            (q.get_display_frame T).1.buffer = f :: rest
      | [] =>
          (q.get_display_frame T).1.current_frame = q.current_frame ∧
          (q.get_display_frame T).1.buffer = []) := by
  refine ⟨rfl, (List.takeWhile_append_dropWhile _ _).symm, ?_, ?_⟩
  · intro f hf
    have h := List.mem_takeWhile_imp hf
    simpa [lateFor] using h
  · have hcur : q.receive_frames.current_frame = q.current_frame := rfl
    rcases hd : q.receive_frames.buffer.dropWhile (lateFor T) with _ | ⟨f, rest⟩
    · simp [VideoFrameQueue.get_display_frame, hd, hcur]
    · by_cases hf : f.pts ≤ T + HOLD_THRESHOLD
      · simp [VideoFrameQueue.get_display_frame, hd, hf]
      · simp [VideoFrameQueue.get_display_frame, hd, hf, hcur]

unseal Rat.add Rat.mul Rat.sub Rat.inv in
theorem C1_get_display_frame_behavior_witness :
    (VideoFrameQueue.get_display_frame ⟨[], [⟨[], 0, 0, 1⟩, ⟨[], 0, 0, 2⟩, ⟨[], 0, 0, 3⟩], none, 30⟩ 2).2 =
      (VideoFrameQueue.get_display_frame ⟨[], [⟨[], 0, 0, 1⟩, ⟨[], 0, 0, 2⟩, ⟨[], 0, 0, 3⟩], none, 30⟩ 2).1.current_frame ∧
    (VideoFrameQueue.get_display_frame ⟨[], [⟨[], 0, 0, 1⟩, ⟨[], 0, 0, 2⟩, ⟨[], 0, 0, 3⟩], none, 30⟩ 2).2 =
      some ⟨[], 0, 0, 2⟩ :=
  ⟨(C1_get_display_frame_behavior ⟨[], [⟨[], 0, 0, 1⟩, ⟨[], 0, 0, 2⟩, ⟨[], 0, 0, 3⟩], none, 30⟩ 2).1,
    by decide⟩

/-- C3: `get_first_frame_after_seek(T)` refills, discards exactly the frames at
the front with `pts < T - 0.5`, and any frame it moves into `current_frame`
and returns has `pts ≥ T - 0.5`. -/
theorem C3_first_frame_after_seek_tolerance (q : VideoFrameQueue) (T : ℚ) :
    (q.get_first_frame_after_seek T).2 = (q.get_first_frame_after_seek T).1.current_frame ∧
    q.receive_frames.buffer =
      q.receive_frames.buffer.takeWhile (beforeSeekTol T) ++
        q.receive_frames.buffer.dropWhile (beforeSeekTol T) ∧
    (∀ f ∈ q.receive_frames.buffer.takeWhile (beforeSeekTol T), f.pts < T - 1 / 2) ∧
    (match q.receive_frames.buffer.dropWhile (beforeSeekTol T) with
      | f :: rest =>
          (q.get_first_frame_after_seek T).1.current_frame = some f ∧
          (q.get_first_frame_after_seek T).2 = some f ∧
          T - 1 / 2 ≤ f.pts ∧
          (q.get_first_frame_after_seek T).1.buffer = rest
      | [] =>
          (q.get_first_frame_after_seek T).1.current_frame = q.current_frame ∧
          (q.get_first_frame_after_seek T).1.buffer = []) := by
  refine ⟨rfl, (List.takeWhile_append_dropWhile _ _).symm, ?_, ?_⟩
  · intro f hf
    have h := List.mem_takeWhile_imp hf
    simpa [beforeSeekTol] using h
  · have hcur : q.receive_frames.current_frame = q.current_frame := rfl
    rcases hd : q.receive_frames.buffer.dropWhile (beforeSeekTol T) with _ | ⟨f, rest⟩
    · simp [VideoFrameQueue.get_first_frame_after_seek, hd, hcur]
    · have hnl : beforeSeekTol T f = false := dropWhile_cons_head_not hd
      have hge : T - 1 / 2 ≤ f.pts := by
        simp [beforeSeekTol] at hnl
        linarith
      refine ⟨?_, ?_, hge, ?_⟩ <;>
        simp [VideoFrameQueue.get_first_frame_after_seek, hd]

unseal Rat.add Rat.mul Rat.sub Rat.inv in
theorem C3_first_frame_after_seek_tolerance_witness :
    (VideoFrameQueue.get_first_frame_after_seek ⟨[], [⟨[], 0, 0, 1⟩, ⟨[], 0, 0, 8⟩], none, 30⟩ 8).2 =
      (VideoFrameQueue.get_first_frame_after_seek ⟨[], [⟨[], 0, 0, 1⟩, ⟨[], 0, 0, 8⟩], none, 30⟩ 8).1.current_frame ∧
    (VideoFrameQueue.get_first_frame_after_seek ⟨[], [⟨[], 0, 0, 1⟩, ⟨[], 0, 0, 8⟩], none, 30⟩ 8).2 =
      some ⟨[], 0, 0, 8⟩ :=
  ⟨(C3_first_frame_after_seek_tolerance ⟨[], [⟨[], 0, 0, 1⟩, ⟨[], 0, 0, 8⟩], none, 30⟩ 8).1,
    by decide⟩

/-- C10: once `current_frame` is populated, `get_display_frame` and
`get_first_frame_after_seek` keep it populated and return `some` no matter the
clock value or how empty the buffer and channel are; `receive_frames` never
touches it; `clear` is the operation that resets it to `none`. -/
theorem C10_current_frame_persistent (q : VideoFrameQueue) (T : ℚ)
    (h : q.current_frame.isSome = true) :
    (q.get_display_frame T).1.current_frame.isSome = true ∧
    (q.get_display_frame T).2.isSome = true ∧
    (q.get_first_frame_after_seek T).1.current_frame.isSome = true ∧
    (q.get_first_frame_after_seek T).2.isSome = true ∧
    q.receive_frames.current_frame = q.current_frame ∧
    q.clear.current_frame = none := by
  have hrecv : q.receive_frames.current_frame = q.current_frame := rfl
  have h1 : (q.get_display_frame T).1.current_frame.isSome = true := by
    rcases hd : q.receive_frames.buffer.dropWhile (lateFor T) with _ | ⟨f, rest⟩
    · simpa [VideoFrameQueue.get_display_frame, hd, hrecv] using h
    · by_cases hf : f.pts ≤ T + HOLD_THRESHOLD
      · simp [VideoFrameQueue.get_display_frame, hd, hf]
      · simpa [VideoFrameQueue.get_display_frame, hd, hf, hrecv] using h
  have h2 : (q.get_first_frame_after_seek T).1.current_frame.isSome = true := by
    rcases hd : q.receive_frames.buffer.dropWhile (beforeSeekTol T) with _ | ⟨f, rest⟩
    · simpa [VideoFrameQueue.get_first_frame_after_seek, hd, hrecv] using h
    · simp [VideoFrameQueue.get_first_frame_after_seek, hd]
  exact ⟨h1, h1, h2, h2, hrecv, rfl⟩

unseal Rat.add Rat.mul Rat.sub Rat.inv in
theorem C10_current_frame_persistent_witness :
    (VideoFrameQueue.current_frame ⟨[], [], some ⟨[], 0, 0, 1⟩, 30⟩).isSome = true ∧
    (VideoFrameQueue.get_display_frame ⟨[], [], some ⟨[], 0, 0, 1⟩, 30⟩ 100).2.isSome = true :=
  ⟨rfl, (C10_current_frame_persistent ⟨[], [], some ⟨[], 0, 0, 1⟩, 30⟩ 100 rfl).2.1⟩

/-- In a trace without `set_position`, the observations are: the initial flag
value first (if any observation happens), then `false` forever — each
`should_clear_buffer` swaps the flag to `false`. -/
theorem clock_outputs_no_set (c : AudioClock) (ops : List ClockOp)
    (h : ∀ op ∈ ops, isSetPos op = false) :
    clock_outputs c ops =
      if c.clear_buffer then oneShotPattern (numChecks ops)
      else List.replicate (numChecks ops) false := by
  induction ops generalizing c with
  | nil => simp [clock_outputs, numChecks, oneShotPattern]
  | cons op rest ih =>
    cases op with
    | set_pos t =>
        have := h (.set_pos t) (List.mem_cons_self _ _)
        simp [isSetPos] at this
    | check =>
        have hrest : ∀ op ∈ rest, isSetPos op = false := fun op hop =>
          h op (List.mem_cons_of_mem _ hop)
        have hnum : numChecks (ClockOp.check :: rest) = numChecks rest + 1 := by
          simp [numChecks, isSetPos, List.filter]
        have htail := ih { c with clear_buffer := false } hrest
        simp only [AudioClock.should_clear_buffer] at htail ⊢
        rw [clock_outputs]
        cases hc : c.clear_buffer <;>
          simp [AudioClock.should_clear_buffer, hnum, htail, oneShotPattern, hc,
            List.replicate_succ]

/-- C4: in any trace of `set_position` / `should_clear_buffer` calls,
`should_clear_buffer` returns `true` for exactly one observation per preceding
`set_position`: the first observation after a `set_position` returns `true`,
every further observation returns `false` until the next `set_position`, and
with the flag down and no `set_position`, no observation returns `true`. -/
theorem C4_should_clear_buffer_one_shot (c : AudioClock) (t : ℚ) (post : List ClockOp)
    (h : ∀ op ∈ post, isSetPos op = false) :
    clock_outputs (c.set_position t) post = oneShotPattern (numChecks post) ∧
    (clock_outputs (c.set_position t) post).count true = min 1 (numChecks post) ∧
    (c.clear_buffer = false →
      clock_outputs c post = List.replicate (numChecks post) false ∧
      (clock_outputs c post).count true = 0) := by
  have hflag : (c.set_position t).clear_buffer = true := rfl
  have h1 : clock_outputs (c.set_position t) post = oneShotPattern (numChecks post) := by
    rw [clock_outputs_no_set _ _ h, hflag]
    simp
  have hcount : ∀ n, (oneShotPattern n).count true = min 1 n := by
    intro n
    cases n with
    | zero => simp [oneShotPattern]
    | succ m =>
        have hmin : min 1 (m + 1) = 1 := by omega
        simp [oneShotPattern, List.count_cons, List.count_replicate, hmin]
  refine ⟨h1, by rw [h1]; exact hcount _, fun hc => ?_⟩
  have h2 : clock_outputs c post = List.replicate (numChecks post) false := by
    rw [clock_outputs_no_set _ _ h, hc]
    simp
  refine ⟨h2, by rw [h2]; simp [List.count_replicate]⟩

unseal Rat.add Rat.mul Rat.sub Rat.inv in
theorem C4_should_clear_buffer_one_shot_witness :
    clock_outputs (AudioClock.set_position ⟨0, true, false, 44100, 2⟩ 5)
        [ClockOp.check, ClockOp.check, ClockOp.check] =
      oneShotPattern (numChecks [ClockOp.check, ClockOp.check, ClockOp.check]) ∧
    clock_outputs (AudioClock.set_position ⟨0, true, false, 44100, 2⟩ 5)
        [ClockOp.check, ClockOp.check, ClockOp.check] = [true, false, false] :=
  ⟨(C4_should_clear_buffer_one_shot ⟨0, true, false, 44100, 2⟩ 5
      [ClockOp.check, ClockOp.check, ClockOp.check] (by decide)).1,
    by decide⟩

/-- Swapping the clear-buffer flag to `false` is a no-op when it is down. -/
theorem clear_false_update_eq (c : AudioClock) (h : c.clear_buffer = false) :
    ({ c with clear_buffer := false } : AudioClock) = c := by
  cases c
  simp_all

/-- C6: `AudioSource::next` always yields a sample: with the clear flag up it
clears the buffer, resets the counter and yields silence; with a sample
available it pops it, bumps the counter and advances the clock by 256 exactly
when the counter reaches a multiple of 256; on underrun it yields silence and
changes nothing. -/
theorem C6_audio_source_next_total (s : AudioSource) :
    s.next.1.isSome = true ∧
    (s.clock.clear_buffer = true →
      s.next = (some 0,
        ⟨CircularBuffer.clear s.buffer, { s.clock with clear_buffer := false }, 0⟩)) ∧
    (∀ x rest, s.clock.clear_buffer = false → s.buffer = x :: rest →
      s.next = (some x,
        ⟨rest,
          if (s.samples_consumed + 1) % 256 = 0 then s.clock.advance_samples 256 else s.clock,
          s.samples_consumed + 1⟩)) ∧
    (s.clock.clear_buffer = false → s.buffer = [] → s.next = (some 0, s)) := by
  obtain ⟨buf, ⟨us, pa, cb, sr, ch⟩, n⟩ := s
  cases cb
  · refine ⟨?_, ?_, ?_, ?_⟩
    · cases buf <;>
        simp [AudioSource.next, AudioClock.should_clear_buffer, CircularBuffer.try_pop]
    · intro hcb
      simp at hcb
    · intro x rest hcb hbuf
      subst hbuf
      simp [AudioSource.next, AudioClock.should_clear_buffer, CircularBuffer.try_pop]
    · intro hcb hbuf
      subst hbuf
      simp [AudioSource.next, AudioClock.should_clear_buffer, CircularBuffer.try_pop]
  · refine ⟨?_, ?_, ?_, ?_⟩
    · simp [AudioSource.next, AudioClock.should_clear_buffer]
    · intro hcb
      simp [AudioSource.next, AudioClock.should_clear_buffer, CircularBuffer.clear]
    · intro x rest hcb hbuf
      simp at hcb
    · intro hcb hbuf
      simp at hcb

theorem C6_audio_source_next_total_witness :
    (⟨[], ⟨0, true, true, 44100, 2⟩, 0⟩ : AudioSource).clock.clear_buffer = true ∧
    AudioSource.next ⟨[], ⟨0, true, true, 44100, 2⟩, 0⟩ =
      (some 0, ⟨[], ⟨0, true, false, 44100, 2⟩, 0⟩) :=
  ⟨rfl, by
    have h := (C6_audio_source_next_total ⟨[], ⟨0, true, true, 44100, 2⟩, 0⟩).2.1 rfl
    simpa [CircularBuffer.clear] using h⟩

/-- C7: when the decode loop observes `pending_seek = Some(t)`, it issues a
demuxer seek to `t · AV_TIME_BASE` microseconds with that timestamp also as the
upper bound (the seek-to-at-most-`t` primitive), flushes the video and the
audio decoder, sets the clock position to `t` (raising the buffer-clear flag),
and clears `at_eof`; a loop iteration in the paused state performs exactly
these effects before its sleep. -/
theorem C7_pending_seek_effects (s : DecoderState) (t : ℚ) (h : s.pending_seek = some t) :
    handle_pending_seek s true =
      ({ s with pending_seek := none, at_eof := false, clock := s.clock.set_position t },
        [DecoderEffect.demuxSeek (i64OfRat (t * (AV_TIME_BASE : ℚ)))
            (i64OfRat (t * (AV_TIME_BASE : ℚ))),
          DecoderEffect.flushVideoDecoder, DecoderEffect.flushAudioDecoder]) ∧
    (s.clock.set_position t).clear_buffer = true ∧
    AV_TIME_BASE = 1000000 ∧
    (s.paused = true → ∀ r,
      decode_step s false [] true r =
        .continueLoop
          { s with pending_seek := none, at_eof := false, clock := s.clock.set_position t }
          [DecoderEffect.demuxSeek (i64OfRat (t * (AV_TIME_BASE : ℚ)))
              (i64OfRat (t * (AV_TIME_BASE : ℚ))),
            DecoderEffect.flushVideoDecoder, DecoderEffect.flushAudioDecoder,
            DecoderEffect.sleep10ms]) := by
  refine ⟨?_, rfl, rfl, ?_⟩
  · simp [handle_pending_seek, h]
  · intro hp r
    simp [decode_step, processCommands, handle_pending_seek, h, hp]

unseal Rat.add Rat.mul Rat.sub Rat.inv in
theorem C7_pending_seek_effects_witness :
    handle_pending_seek ⟨true, some 3, true, ⟨0, true, false, 44100, 2⟩⟩ true =
      (⟨true, none, false, ⟨3000000, true, true, 44100, 2⟩⟩,
        [DecoderEffect.demuxSeek 3000000 3000000, DecoderEffect.flushVideoDecoder,
          DecoderEffect.flushAudioDecoder]) := by
  rw [(C7_pending_seek_effects ⟨true, some 3, true, ⟨0, true, false, 44100, 2⟩⟩ 3 rfl).1]
  decide

/-- C9: EOF is quiescence, not an error: reading EOF sets `at_eof` and the loop
continues with no error reported; while paused or at EOF the iteration only
sleeps 10 ms and reads no packet, yet Stop still exits and Seek is still
performed; a non-EOF read error just skips the packet. -/
theorem C9_eof_pause_error_handling (s : DecoderState) :
    (s.pending_seek = none → s.paused = false → s.at_eof = false →
      decode_step s false [] true ReadResult.eofRead =
        .continueLoop { s with at_eof := true } [DecoderEffect.packetRead]) ∧
    (∀ r, s.pending_seek = none → (s.paused || s.at_eof) = true →
      decode_step s false [] true r = .continueLoop s [DecoderEffect.sleep10ms]) ∧
    (∀ r sf, decode_step s sf [DecoderCommand.stop] true r = DecodeStepResult.exitOk) ∧
    (∀ t r, s.pending_seek = none → s.paused = true →
      decode_step s false [DecoderCommand.seek t] true r =
        .continueLoop { s with pending_seek := none, at_eof := false, clock := s.clock.set_position t }
          [DecoderEffect.demuxSeek (i64OfRat (t * (AV_TIME_BASE : ℚ)))
              (i64OfRat (t * (AV_TIME_BASE : ℚ))),
            DecoderEffect.flushVideoDecoder, DecoderEffect.flushAudioDecoder,
            DecoderEffect.sleep10ms]) ∧
    (s.pending_seek = none → s.paused = false → s.at_eof = false →
      decode_step s false [] true ReadResult.readErr =
        .continueLoop s [DecoderEffect.packetRead]) := by
  refine ⟨?_, ?_, ?_, ?_, ?_⟩
  · intro hpend hp he
    simp [decode_step, processCommands, handle_pending_seek, hpend, hp, he]
  · intro r hpend hpe
    simp [decode_step, processCommands, handle_pending_seek, hpend, hpe]
  · intro r sf
    cases sf <;> simp [decode_step, processCommands]
  · intro t r hpend hp
    simp [decode_step, processCommands, handle_pending_seek, hpend, hp]
  · intro hpend hp he
    simp [decode_step, processCommands, handle_pending_seek, hpend, hp, he]

theorem C9_eof_pause_error_handling_witness :
    decode_step ⟨true, none, true, ⟨0, true, false, 44100, 2⟩⟩ false [] true ReadResult.eofRead =
      .continueLoop ⟨true, none, true, ⟨0, true, false, 44100, 2⟩⟩ [DecoderEffect.sleep10ms] ∧
    decode_step ⟨false, none, false, ⟨0, false, false, 44100, 2⟩⟩ false [] true
        ReadResult.eofRead =
      .continueLoop ⟨false, none, true, ⟨0, false, false, 44100, 2⟩⟩
        [DecoderEffect.packetRead] := by
  constructor
  · exact (C9_eof_pause_error_handling ⟨true, none, true, ⟨0, true, false, 44100, 2⟩⟩).2.1
      ReadResult.eofRead rfl rfl
  · exact (C9_eof_pause_error_handling ⟨false, none, false, ⟨0, false, false, 44100, 2⟩⟩).1
      rfl rfl rfl

/-- C8: `VideoPlayer::seek(p)` stores `p` clamped to `[0, duration]` as the
seek target, raises the seeking flag, pauses the audio sink, clears the frame
queue (buffer, current frame and channel), sets the clock position (raising the
buffer-clear flag), and emits a Seek command; `position()` reports the seek
target while seeking and the clock position otherwise. -/
theorem C8_seek_and_position (p : VideoPlayer) (pos : ℚ) (h : 0 ≤ p.duration) :
    (p.seek pos).seek_target = rustClamp pos 0 p.duration ∧
    rustClamp pos 0 p.duration = min (max pos 0) p.duration ∧
    (0 ≤ (p.seek pos).seek_target ∧ (p.seek pos).seek_target ≤ p.duration) ∧
    (p.seek pos).seeking = true ∧
    (p.seek pos).sink_paused = true ∧
    (p.seek pos).frame_queue = p.frame_queue.clear ∧
    (p.seek pos).frame_queue.buffer = [] ∧
    (p.seek pos).frame_queue.current_frame = none ∧
    (p.seek pos).frame_queue.receiver = [] ∧
    (p.seek pos).clock = p.clock.set_position (rustClamp pos 0 p.duration) ∧
    (p.seek pos).clock.clear_buffer = true ∧
    (p.seek pos).commands = p.commands ++ [DecoderCommand.seek (rustClamp pos 0 p.duration)] ∧
    (p.seek pos).position = (p.seek pos).seek_target ∧
    (p.seeking = true → p.position = p.seek_target) ∧
    (p.seeking = false → p.position = p.clock.position) := by
  have hmm : rustClamp pos 0 p.duration = min (max pos 0) p.duration := by
    unfold rustClamp
    split_ifs with h1 h2
    · simp [max_eq_right h1.le, min_eq_left h]
    · simp [max_eq_left (not_lt.1 h1), min_eq_right h2.le]
    · simp [max_eq_left (not_lt.1 h1), min_eq_left (not_lt.1 h2)]
  have hbounds : 0 ≤ rustClamp pos 0 p.duration ∧ rustClamp pos 0 p.duration ≤ p.duration := by
    rw [hmm]
    exact ⟨le_min (le_max_right _ _) h, min_le_right _ _⟩
  refine ⟨rfl, hmm, hbounds, rfl, rfl, rfl, rfl, rfl, rfl, rfl, rfl, rfl, rfl, ?_, ?_⟩
  · intro hs
    simp [VideoPlayer.position, hs]
  · intro hs
    simp [VideoPlayer.position, hs]

theorem C8_seek_and_position_witness :
    (0 : ℚ) ≤ 10 ∧
    (VideoPlayer.seek
        ⟨.Stopped, false, 0, 10, false, ⟨0, true, false, 44100, 2⟩, ⟨[], [], none, 30⟩, []⟩
        25).seek_target = rustClamp 25 0 10 ∧
    rustClamp (25 : ℚ) 0 10 = 10 :=
  ⟨by decide,
    (C8_seek_and_position
      ⟨.Stopped, false, 0, 10, false, ⟨0, true, false, 44100, 2⟩, ⟨[], [], none, 30⟩, []⟩
      25 (by decide)).1,
    by decide⟩

/-- Refilling moves frames from the channel into the buffer without changing
the overall presentation pipeline. -/
theorem frameChain_receive_frames (q : VideoFrameQueue) :
    frameChain q.receive_frames = frameChain q := by
  simp [frameChain, VideoFrameQueue.receive_frames, List.append_assoc, List.take_append_drop]

/-- One `get_display_frame` call on a PTS-sorted state yields a PTS-sorted
state, and either leaves `current_frame` unchanged or advances it to a frame
strictly later than the old current frame and strictly earlier than everything
still in the pipeline. -/
theorem get_display_frame_sorted_step (q : VideoFrameQueue) (T : ℚ) (h : StateSorted q) :
    StateSorted (q.get_display_frame T).1 ∧
    ((q.get_display_frame T).1.current_frame = q.current_frame ∨
      ∃ f, (q.get_display_frame T).1.current_frame = some f ∧
        (∀ g, q.current_frame = some g → g.pts < f.pts) ∧
        (∀ x ∈ (q.get_display_frame T).1.buffer ++ (q.get_display_frame T).1.receiver,
          f.pts < x.pts)) := by
  have h1 : StateSorted q.receive_frames := by
    unfold StateSorted
    rw [frameChain_receive_frames]
    exact h
  have hcur : q.receive_frames.current_frame = q.current_frame := rfl
  unfold StateSorted frameChain at h1
  rcases hd : q.receive_frames.buffer.dropWhile (lateFor T) with _ | ⟨f, rest⟩
  · constructor
    · unfold StateSorted frameChain
      refine h1.sublist ?_
      simp only [VideoFrameQueue.get_display_frame, hd]
      exact ((List.Sublist.refl _).append (List.nil_sublist _)).append (List.Sublist.refl _)
    · left
      simp [VideoFrameQueue.get_display_frame, hd, hcur]
  · have hsub : List.Sublist (f :: rest) q.receive_frames.buffer :=
      hd ▸ List.dropWhile_sublist _
    by_cases hf : f.pts ≤ T + HOLD_THRESHOLD
    · have hchain : (q.get_display_frame T).1.current_frame = some f ∧
          (q.get_display_frame T).1.buffer = rest ∧
          (q.get_display_frame T).1.receiver = q.receive_frames.receiver := by
        refine ⟨?_, ?_, ?_⟩ <;> simp [VideoFrameQueue.get_display_frame, hd, hf]
      have hsorted2 : ((f :: rest) ++ q.receive_frames.receiver).Pairwise
          (fun a b => a.pts < b.pts) :=
        h1.sublist ((hsub.trans (List.sublist_append_right _ _)).append (List.Sublist.refl _))
      have hsorted2c : (f :: (rest ++ q.receive_frames.receiver)).Pairwise
          (fun a b => a.pts < b.pts) := by
        rwa [List.cons_append] at hsorted2
      constructor
      · unfold StateSorted frameChain
        rw [hchain.1, hchain.2.1, hchain.2.2]
        exact hsorted2
      · right
        refine ⟨f, hchain.1, ?_, ?_⟩
        · intro g hg
          have hfb : f ∈ q.receive_frames.buffer := hsub.subset (List.mem_cons_self _ _)
          have hpair : (q.receive_frames.current_frame.toList ++
              q.receive_frames.buffer).Pairwise (fun a b => a.pts < b.pts) :=
            h1.sublist (List.sublist_append_left _ _)
          have hrel := (List.pairwise_append.mp hpair).2.2
          refine hrel g ?_ f hfb
          rw [hcur, hg]
          simp
        · intro x hx
          rw [hchain.2.1, hchain.2.2] at hx
          exact (List.pairwise_cons.mp hsorted2c).1 x hx
    · constructor
      · unfold StateSorted frameChain
        refine h1.sublist ?_
        simp only [VideoFrameQueue.get_display_frame, hd, if_neg hf]
        exact ((List.Sublist.refl _).append hsub).append (List.Sublist.refl _)
      · left
        simp [VideoFrameQueue.get_display_frame, hd, hf, hcur]

/-- Along any trace of `get_display_frame` calls from a PTS-sorted state, the
presented frames have strictly increasing PTS, all lie strictly after the
initial current frame, and at most one frame is presented per call. -/
theorem run_display_chain : ∀ (Ts : List ℚ) (q : VideoFrameQueue), StateSorted q →
    (run_display q Ts).Pairwise (fun a b => a.pts < b.pts) ∧
    (∀ f ∈ run_display q Ts, ∀ g, q.current_frame = some g → g.pts < f.pts) ∧
    (run_display q Ts).length ≤ Ts.length := by
  intro Ts
  induction Ts with
  | nil =>
      intro q hq
      simp [run_display]
  | cons T rest ih =>
      intro q hq
      obtain ⟨hsorted, hstep⟩ := get_display_frame_sorted_step q T hq
      obtain ⟨ihp, ihb, ihl⟩ := ih _ hsorted
      rcases hstep with heq | ⟨f, hf, hold, hnext⟩
      · have hrun : run_display q (T :: rest) = run_display (q.get_display_frame T).1 rest := by
          simp only [run_display, heq]
          rcases hc : q.current_frame with _ | g
          · rfl
          · simp
        rw [hrun]
        refine ⟨ihp, ?_, ihl.trans (Nat.le_succ _)⟩
        intro x hx g hg
        exact ihb x hx g (heq.trans hg)
      · have hrun : run_display q (T :: rest) =
            f :: run_display (q.get_display_frame T).1 rest := by
          simp only [run_display, hf]
          rcases hc : q.current_frame with _ | g
          · rfl
          · have hne : f ≠ g := by
              intro e
              have := hold g hc
              rw [e] at this
              exact lt_irrefl _ this
            simp [hne]
        rw [hrun]
        refine ⟨?_, ?_, ?_⟩
        · refine List.pairwise_cons.mpr ⟨?_, ihp⟩
          intro x hx
          exact ihb x hx f hf
        · intro x hx g hg
          rcases List.mem_cons.mp hx with rfl | hx2
          · exact hold g hg
          · exact lt_trans (hold g hg) (ihb x hx2 f hf)
        · simpa using Nat.succ_le_succ ihl

/-- C5: starting from a strictly PTS-increasing pipeline, any sequence of
`get_display_frame` calls at non-decreasing clock times moves frames into
`current_frame` in strict PTS order, moves each frame at most once, and
advances at most one frame per call. -/
theorem C5_monotone_presentation (q : VideoFrameQueue) (Ts : List ℚ)
    (hq : StateSorted q) (hT : Ts.Pairwise (· ≤ ·)) :
    (run_display q Ts).Pairwise (fun a b => a.pts < b.pts) ∧
    (run_display q Ts).Nodup ∧
    (run_display q Ts).length ≤ Ts.length := by
  obtain ⟨hp, _, hl⟩ := run_display_chain Ts q hq
  have hne : ∀ a b : DecodedVideoFrame, a.pts < b.pts → a ≠ b := by
    intro a b hab e
    rw [e] at hab
    exact lt_irrefl _ hab
  exact ⟨hp, hp.imp (fun h => hne _ _ h), hl⟩

unseal Rat.add Rat.mul Rat.sub Rat.inv in
theorem C5_monotone_presentation_witness :
    StateSorted ⟨[], [⟨[], 0, 0, 1⟩, ⟨[], 0, 0, 2⟩], none, 30⟩ ∧
    List.Pairwise (· ≤ ·) [(1 : ℚ), 2] ∧
    (run_display ⟨[], [⟨[], 0, 0, 1⟩, ⟨[], 0, 0, 2⟩], none, 30⟩ [1, 2]).Nodup ∧
    run_display ⟨[], [⟨[], 0, 0, 1⟩, ⟨[], 0, 0, 2⟩], none, 30⟩ [1, 2] =
      [⟨[], 0, 0, 1⟩, ⟨[], 0, 0, 2⟩] :=
  ⟨by decide, by decide,
    (C5_monotone_presentation ⟨[], [⟨[], 0, 0, 1⟩, ⟨[], 0, 0, 2⟩], none, 30⟩ [1, 2]
      (by decide) (by decide)).2.1,
    by decide⟩

/-- Taking the last `n` elements distributes over append. -/
theorem lastN_append (n : ℕ) (a b : List α) :
    lastN n (a ++ b) = lastN (n - b.length) a ++ lastN n b := by
  unfold lastN
  rcases le_or_lt n b.length with h | h
  · have h0 : n - b.length = 0 := by omega
    have hlen : a.length + b.length - n = a.length + (b.length - n) := by omega
    rw [List.length_append, hlen, List.drop_append, h0]
    simp [List.drop_length]
  · have hle : a.length + b.length - n ≤ a.length := by omega
    rw [List.length_append, List.drop_append_of_le_length hle]
    have hb0 : b.length - n = 0 := by omega
    have ha : a.length - (n - b.length) = a.length + b.length - n := by omega
    rw [hb0, List.drop_zero, ha]

/-- The last `m ≤ C` elements of the last `C` elements are the last `m`. -/
theorem lastN_lastN (m C : ℕ) (h : m ≤ C) (l : List α) :
    lastN m (lastN C l) = lastN m l := by
  unfold lastN
  rw [List.length_drop, List.drop_drop]
  congr 1
  omega

/-- `push_slice` on a within-capacity buffer keeps exactly the last `capacity`
elements of the buffer's history extended by the new items. -/
theorem push_slice_eq_lastN (C : ℕ) (buf items : List α) (h : buf.length ≤ C) :
    CircularBuffer.push_slice C buf items = lastN C (buf ++ items) := by
  simp only [CircularBuffer.push_slice]
  split_ifs with hc hav
  · rw [lastN_append]
    have h0 : C - items.length = 0 := by omega
    rw [h0]
    simp [lastN, List.drop_length]
  · have hni : items.length < C := by omega
    have hitems : lastN C items = items := by
      unfold lastN
      have h0 : items.length - C = 0 := by omega
      rw [h0, List.drop_zero]
    rw [lastN_append, hitems]
    congr 1
    unfold lastN
    congr 1
    omega
  · have hni : items.length < C := by omega
    have hitems : lastN C items = items := by
      unfold lastN
      have h0 : items.length - C = 0 := by omega
      rw [h0, List.drop_zero]
    rw [lastN_append, hitems]
    unfold lastN
    have h0 : buf.length - (C - items.length) = 0 := by omega
    rw [h0, List.drop_zero]

/-- `push_slice` never grows the buffer beyond the capacity. -/
theorem push_slice_length_le (C : ℕ) (buf items : List α) (h : buf.length ≤ C) :
    (CircularBuffer.push_slice C buf items).length ≤ C := by
  rw [push_slice_eq_lastN C buf items h]
  unfold lastN
  rw [List.length_drop]
  omega

/-- Along any operation trace from a within-capacity buffer, the buffer length
stays within the capacity. -/
theorem cbRun_length_le (C : ℕ) : ∀ (ops : List (CBOp α)) (buf : List α),
    buf.length ≤ C → (cbRun C buf ops).1.length ≤ C := by
  intro ops
  induction ops with
  | nil =>
      intro buf h
      simpa [cbRun] using h
  | cons op rest ih =>
      intro buf h
      cases op with
      | push items =>
          simp only [cbRun, cbApply]
          exact ih _ (push_slice_length_le C buf items h)
      | pop =>
          cases buf with
          | nil =>
              simp only [cbRun, cbApply, CircularBuffer.try_pop]
              exact ih _ (by simp)
          | cons x xs =>
              simp only [cbRun, cbApply, CircularBuffer.try_pop]
              refine ih _ ?_
              simp only [List.length_cons] at h
              omega

/-- A pop-free trace leaves the buffer holding exactly the last `capacity`
elements of the concatenated push history. -/
theorem cbRun_pushes_lastN (C : ℕ) : ∀ (pushes : List (List α)) (h : List α),
    (cbRun C (lastN C h) (pushes.map CBOp.push)).1 = lastN C (h ++ pushes.flatten) := by
  intro pushes
  induction pushes with
  | nil =>
      intro h
      simp [cbRun]
  | cons items rest ih =>
      intro h
      simp only [List.map_cons, cbRun, cbApply]
      have hlen : (lastN C h).length ≤ C := by
        unfold lastN
        rw [List.length_drop]
        omega
      rw [push_slice_eq_lastN C _ items hlen]
      have habs : lastN C (lastN C h ++ items) = lastN C (h ++ items) := by
        rw [lastN_append, lastN_append, lastN_lastN _ _ (Nat.sub_le C items.length)]
      rw [habs, ih (h ++ items)]
      rw [List.flatten_cons, ← List.append_assoc]

/-- Draining a buffer with one pop per element returns exactly the buffer
contents, in FIFO order, and empties the buffer. -/
theorem cbRun_drain (C : ℕ) : ∀ buf : List α,
    (cbRun C buf (List.replicate buf.length CBOp.pop)).2 = buf.map some ∧
    (cbRun C buf (List.replicate buf.length CBOp.pop)).1 = [] := by
  intro buf
  induction buf with
  | nil => simp [cbRun]
  | cons x xs ih =>
      simp only [List.length_cons, List.replicate_succ, cbRun, cbApply,
        CircularBuffer.try_pop, List.map_cons]
      simp [ih.1, ih.2]

/-- C2 counterexample: with capacity 2, `push_slice [1,2,3]` keeps `[2,3]`
(evicting `1`), and `try_pop` returns `2`; draining then yields `[3]` — one
item, not the `min(pushed-and-not-popped, C) = 2` items the claim predicts
(neither `[1,3]`, the pushed items never popped, nor `[2,3]`, the last two
pushed): an item evicted by overflow is neither popped nor still obtainable. -/
theorem C2_counterexample :
    cbRun 2 ([] : List ℕ) [CBOp.push [1, 2, 3], CBOp.pop] = ([3], [some 2]) ∧
    (cbRun 2 ([] : List ℕ) [CBOp.push [1, 2, 3], CBOp.pop]).1 ≠ [1, 3] ∧
    (cbRun 2 ([] : List ℕ) [CBOp.push [1, 2, 3], CBOp.pop]).1 ≠ [2, 3] ∧
    (cbRun 2 ([] : List ℕ) [CBOp.push [1, 2, 3], CBOp.pop]).1.length ≠ min (3 - 1) 2 := by
  decide

/-- C2 (amended): for capacity `C > 0`, the observable length is at most `C`
after every operation; each `push_slice` leaves exactly the last `C` elements
of buffer-plus-new-items (so the items neither popped nor evicted as oldest on
overflow); a pop-free history drains, in FIFO push order, to the last
`min(|history|, C)` pushed items; `push_slice(S)` with `|S| ≥ C` keeps exactly
the last `C` items of `S`, and with `|S| < C` evicts exactly
`max(0, len + |S| − C)` oldest items before appending `S`. -/
theorem C2_circular_buffer_amended (C : ℕ) (hC : 0 < C) :
    (∀ (buf : List ℕ) (ops : List (CBOp ℕ)), buf.length ≤ C →
      (cbRun C buf ops).1.length ≤ C) ∧
    (∀ buf items : List ℕ, buf.length ≤ C →
      CircularBuffer.push_slice C buf items = lastN C (buf ++ items)) ∧
    (∀ pushes : List (List ℕ),
      (cbRun C [] (pushes.map CBOp.push)).1 = lastN C pushes.flatten) ∧
    (∀ buf : List ℕ,
      (cbRun C buf (List.replicate buf.length CBOp.pop)).2 = buf.map some) ∧
    (∀ buf items : List ℕ, C ≤ items.length →
      CircularBuffer.push_slice C buf items = items.drop (items.length - C)) ∧
    (∀ buf items : List ℕ, items.length < C → buf.length ≤ C →
      CircularBuffer.push_slice C buf items =
        buf.drop (buf.length + items.length - C) ++ items) := by
  refine ⟨fun buf ops h => cbRun_length_le C ops buf h,
    fun buf items h => push_slice_eq_lastN C buf items h, ?_,
    fun buf => (cbRun_drain C buf).1, ?_, ?_⟩
  · intro pushes
    have h0 : lastN C ([] : List ℕ) = [] := by simp [lastN]
    have hrun := cbRun_pushes_lastN C pushes []
    rw [h0] at hrun
    simpa using hrun
  · intro buf items hc
    simp [CircularBuffer.push_slice, hc]
  · intro buf items h1 h2
    rw [push_slice_eq_lastN C buf items h2, lastN_append]
    have hitems : lastN C items = items := by
      unfold lastN
      have h0 : items.length - C = 0 := by omega
      rw [h0, List.drop_zero]
    rw [hitems]
    congr 1
    unfold lastN
    congr 1
    omega

theorem C2_circular_buffer_amended_witness :
    0 < 2 ∧
    CircularBuffer.push_slice 2 [5] [7, 8] = lastN 2 ([5] ++ [7, 8]) ∧
    CircularBuffer.push_slice 2 [5] [7, 8] = [7, 8] :=
  ⟨by decide, (C2_circular_buffer_amended 2 (by decide)).2.1 [5] [7, 8] (by decide),
    by decide⟩
